import Mathlib

/-!
# Verification of the Jupiter DCA viewer query pipeline

Shallow embedding of the view-model/query pipeline of the
`solana-jupiter-dca-viewer` repository: the time-window partitioner, the
filter engine, the sort engine and the aggregation engine that appear in
the `filteredOrders` / `fetchAggregateUSDCValue` blocks of the two main
component variants (`src/unnamed/part_001`, `src/unnamed/part_002`) and of
`src/src/components/JupiterDCAViewer.tsx`.

Modelling decisions, shared by everything below:

* JavaScript timestamps (millisecond instants obtained from
  `new Date(...).getTime()`) are modelled as `ℤ`.  The records store ISO
  strings, but every use either parses them (`new Date(order.executeAt)`) or
  compares fixed-length ISO-8601 UTC strings, whose lexicographic order
  coincides with the chronological order of the instants, so a single
  integer field is a faithful rendering.  Local-time hour arithmetic
  (`setHours(getHours() + i)`) is modelled as a fixed-offset clock, i.e. one
  hour is exactly 3600000 ms.
* JavaScript numbers (`amount`) are modelled as `ℚ`.
* `Array.prototype.filter` is `List.filter`; `Array.prototype.sort cmp` is
  modelled as a stable insertion sort by the boolean relation
  `cmp a b ≤ 0`, which agrees with the ECMAScript requirement (a stable
  sort) whenever the comparator is consistent.
* `String.prototype.includes` is a contiguous-substring test,
  `toLowerCase` lowercases character by character, and `localeCompare` is
  modelled as code-unit lexicographic three-way comparison.
-/

/-- Represents a DCA order (`type DCAOrder` in all three component variants);
`createdAt` and `executeAt` hold the instant of the stored ISO timestamp. -/
structure DCAOrder where
  id : String
  user : String
  inputMint : String
  outputMint : String
  amount : ℚ
  frequency : String
  createdAt : ℤ
  executeAt : ℤ
deriving DecidableEq

/-- Filter criteria held in the `filters` state of every variant. -/
structure Filters where
  search : String
  inputMint : String
  outputMint : String
  user : String
deriving DecidableEq

/-- Models `s.toLowerCase()` character by character (`Char.toLower`); defined
on the character list so that concrete instances evaluate. -/
def jsToLower (s : String) : String :=
  ⟨s.data.map Char.toLower⟩

/-- Lexicographic strict comparison of character lists, the order JavaScript
uses for `<` on strings (code units). -/
def charsLt : List Char → List Char → Bool
  | [], [] => false
  | [], _ :: _ => true
  | _ :: _, [] => false
  | c :: cs, d :: ds => decide (c < d) || (c == d && charsLt cs ds)

/-- Models the JavaScript `<` on strings. -/
def jsStrLt (s t : String) : Bool :=
  charsLt s.data t.data

/-- Checks that the character list `hay` starts with `needle`. -/
def strStartsW : List Char → List Char → Bool
  | [], _ => true
  | _ :: _, [] => false
  | c :: cs, d :: ds => c == d && strStartsW cs ds

/-- Checks that `needle` occurs contiguously inside `hay`. -/
def hasSub (needle : List Char) : List Char → Bool
  | [] => strStartsW needle []
  | c :: t => strStartsW needle (c :: t) || hasSub needle t

/-- Models `hay.includes(sub)` of JavaScript: contiguous substring test. -/
def jsIncludes (hay sub : String) : Bool :=
  hasSub sub.data hay.data

/-- Time-window tabs of `part_001`/`part_002` (`activeTab`). -/
inductive Tab
  | nextHour
  | nextDay
  | all
deriving DecidableEq

/-- Time-window partitioner: the `relevantOrders` filter of
`filteredOrders` in `part_001` (lines 188–199) and `part_002`.  `now` is the
reference instant and the windows are one hour (3600000 ms) and 24 hours
(86400000 ms). -/
def relevantOrders (tab : Tab) (now : ℤ) (orders : List DCAOrder) : List DCAOrder :=
  orders.filter fun order =>
    match tab with
    | .nextHour => decide (now < order.executeAt) && decide (order.executeAt ≤ now + 3600000)
    | .nextDay => decide (now < order.executeAt) && decide (order.executeAt ≤ now + 86400000)
    | .all => true

/-- Filter-engine predicate of `part_001` lines 202–209 (identical in
`part_002` lines 178–185): substring user match, equality-or-empty mint
selectors, and a free-text search over the three identifier fields, all
conjoined. -/
def keepOrderP1 (filters : Filters) (order : DCAOrder) : Bool :=
  jsIncludes (jsToLower order.user) (jsToLower filters.user) &&
    (filters.inputMint == "" || order.inputMint == filters.inputMint) &&
    (filters.outputMint == "" || order.outputMint == filters.outputMint) &&
    (jsIncludes (jsToLower order.user) (jsToLower filters.search) ||
      jsIncludes (jsToLower order.inputMint) (jsToLower filters.search) ||
      jsIncludes (jsToLower order.outputMint) (jsToLower filters.search))

/-- Filter engine of `part_001` (the second `.filter` of `filteredOrders`). -/
def filterEngineP1 (filters : Filters) (orders : List DCAOrder) : List DCAOrder :=
  orders.filter (keepOrderP1 filters)

/-- Filter-engine predicate of `src/src/components/JupiterDCAViewer.tsx`
lines 66–72: this variant tests the input-mint and output-mint selectors by
case-insensitive substring containment rather than by equality. -/
def keepOrderTsx (filters : Filters) (order : DCAOrder) : Bool :=
  jsIncludes (jsToLower order.user) (jsToLower filters.user) &&
    jsIncludes (jsToLower order.inputMint) (jsToLower filters.inputMint) &&
    jsIncludes (jsToLower order.outputMint) (jsToLower filters.outputMint) &&
    (jsIncludes (jsToLower order.user) (jsToLower filters.search) ||
      jsIncludes (jsToLower order.inputMint) (jsToLower filters.search) ||
      jsIncludes (jsToLower order.outputMint) (jsToLower filters.search))

/-- Filter engine of `JupiterDCAViewer.tsx` (lines 65–78, sort omitted). -/
def filterEngineTsx (filters : Filters) (orders : List DCAOrder) : List DCAOrder :=
  orders.filter (keepOrderTsx filters)

/-- Start of the trailing range of `fetchAggregateUSDCValue`:
`past24Hours = new Date(now.getTime() - 24 * 60 * 60 * 1000)`. -/
def past24Hours (now : ℤ) : ℤ :=
  now - 86400000

/-- Start instant of hourly bucket `i` of `fetchAggregateUSDCValue`
(`hourStart`, obtained by adding `i` hours to `past24Hours`). -/
def hourStart (now : ℤ) (i : ℕ) : ℤ :=
  past24Hours now + i * 3600000

/-- Bucket membership test of `fetchAggregateUSDCValue` lines 142–146:
`executeAt >= hourStart && executeAt < hourEnd && order.inputMint === 'USDC'`
where `hourEnd` is one hour after `hourStart`. -/
def inUSDCBucket (now : ℤ) (i : ℕ) (order : DCAOrder) : Bool :=
  decide (hourStart now i ≤ order.executeAt) &&
    decide (order.executeAt < hourStart now i + 3600000) &&
    (order.inputMint == "USDC")

/-- Stands in for `date.toLocaleTimeString(...)`, whose exact text is
locale-dependent and never inspected by the pipeline; only the number of
labels matters. -/
def localeTimeLabel (t : ℤ) : String :=
  toString t

/-- Label sequence of `fetchAggregateUSDCValue` lines 130–134: one label per
hourly bucket of the trailing 24-hour range. -/
def aggregateLabels (now : ℤ) : List String :=
  (List.range 24).map fun i => localeTimeLabel (hourStart now i)

/-- Value sequence of `fetchAggregateUSDCValue` lines 136–148: for each of
the 24 hourly buckets, the sum of `amount` over the orders of the bucket
whose `inputMint` is `"USDC"`. -/
def aggregateData (now : ℤ) (orders : List DCAOrder) : List ℚ :=
  (List.range 24).map fun i =>
    ((orders.filter (inUSDCBucket now i)).map DCAOrder.amount).sum

/-- Sort directions of the antd `SortOrder` type; the `null` member is
modelled by `Option Dir` with `none` for `null`. -/
inductive Dir
  | ascend
  | descend
deriving DecidableEq

/-- Dynamic value of a JavaScript property access `order[key]`: a string
field, a numeric field, or `undefined` for an unknown key. -/
inductive JsVal
  | undefinedV
  | str (s : String)
  | num (q : ℚ)
deriving DecidableEq

/-- Models the JavaScript `<` comparison on two field values of the same
key: lexicographic on strings, numeric on numbers, and `false` whenever an
operand is `undefined` (`undefined < undefined` is `false`). -/
def jsLt : JsVal → JsVal → Bool
  | .str s, .str t => jsStrLt s t
  | .num p, .num q => decide (p < q)
  | _, _ => false

/-- Models `s.localeCompare(t)` as code-unit three-way comparison. -/
def localeCompare (s t : String) : ℤ :=
  if jsStrLt s t then -1 else if jsStrLt t s then 1 else 0

/-- Derived token pair of an order: `outputMint-inputMint`
(`part_001` lines 212–213). -/
def tokenPair (order : DCAOrder) : String :=
  order.outputMint ++ "-" ++ order.inputMint

/-- Property access `order[key]` for the keys of `DCAOrder`, by field name;
an unknown key yields `undefined`.  The two timestamp fields are numbers in
the model (their ISO strings compare identically to the instants). -/
def fieldVal (key : String) (order : DCAOrder) : JsVal :=
  if key == "id" then .str order.id
  else if key == "user" then .str order.user
  else if key == "inputMint" then .str order.inputMint
  else if key == "outputMint" then .str order.outputMint
  else if key == "amount" then .num order.amount
  else if key == "frequency" then .str order.frequency
  else if key == "createdAt" then .num (order.createdAt : ℚ)
  else if key == "executeAt" then .num (order.executeAt : ℚ)
  else .undefinedV

/-- Inserts `a` into `l` in front of the first element `b` with
`le a b = true`; the elementary step of the stable-sort model. -/
def jsStableInsert (le : DCAOrder → DCAOrder → Bool) (a : DCAOrder) :
    List DCAOrder → List DCAOrder
  | [] => [a]
  | b :: l => if le a b then a :: b :: l else b :: jsStableInsert le a l

/-- Models `Array.prototype.sort(cmp)` as the stable insertion sort by the
relation `le a b := cmp a b ≤ 0`.  ECMAScript requires exactly a stable
sort whenever `cmp` is a consistent comparator. -/
def jsSort (le : DCAOrder → DCAOrder → Bool) : List DCAOrder → List DCAOrder
  | [] => []
  | a :: l => jsStableInsert le a (jsSort le l)

/-- Comparator of `part_001` lines 210–225: the derived `tokenPair` key is
compared with `localeCompare` (arguments swapped unless the direction is
`ascend`); any other key is read off the record and compared with `<` for
`ascend` (`a[k] < b[k] ? -1 : 1`) or with `>` for `descend`
(`a[k] > b[k] ? -1 : 1`); with no direction the comparator is `0`. -/
def cmpP1 (key : String) (dir : Option Dir) (a b : DCAOrder) : ℤ :=
  if key == "tokenPair" then
    if dir == some .ascend then localeCompare (tokenPair a) (tokenPair b)
    else localeCompare (tokenPair b) (tokenPair a)
  else if dir == some .ascend then
    if jsLt (fieldVal key a) (fieldVal key b) then -1 else 1
  else if dir == some .descend then
    if jsLt (fieldVal key b) (fieldVal key a) then -1 else 1
  else 0

/-- Sort engine of `part_001`: `relevantOrders.filter(...).sort(cmp)` with
the comparator `cmpP1`, in the stable-sort model. -/
def sortEngineP1 (key : String) (dir : Option Dir) (orders : List DCAOrder) :
    List DCAOrder :=
  jsSort (fun a b => decide (cmpP1 key dir a b ≤ 0)) orders

/-- Comparator of `part_002` lines 186–191: a `null` direction returns `0`
before any field is read; otherwise the field values are compared with `<`
and `>` and the sign follows the direction. -/
def cmpP2 (key : String) (dir : Option Dir) (a b : DCAOrder) : ℤ :=
  match dir with
  | none => 0
  | some d =>
    if jsLt (fieldVal key a) (fieldVal key b) then
      if d == .ascend then -1 else 1
    else if jsLt (fieldVal key b) (fieldVal key a) then
      if d == .ascend then 1 else -1
    else 0

/-- Sort engine of `part_002`, in the stable-sort model. -/
def sortEngineP2 (key : String) (dir : Option Dir) (orders : List DCAOrder) :
    List DCAOrder :=
  jsSort (fun a b => decide (cmpP2 key dir a b ≤ 0)) orders

/-- List of the valid sort keys of `part_001`: the record fields together
with the derived `tokenPair` key (`SortConfig.key` of `part_001`). -/
def validSortKeysP1 : List String :=
  ["id", "user", "inputMint", "outputMint", "amount", "frequency",
    "createdAt", "executeAt", "tokenPair"]

/-- Value an order exposes under a sort key: the derived token pair for
`"tokenPair"`, otherwise the record field read by `fieldVal`. -/
def sortKeyVal (key : String) (order : DCAOrder) : JsVal :=
  if key == "tokenPair" then .str (tokenPair order) else fieldVal key order

/-- Condition (a) of the spec's Filter Engine, from the spec's words:
the order's `user` contains the user-filter substring, case-insensitively. -/
def specCondUser (filters : Filters) (order : DCAOrder) : Prop :=
  jsIncludes (jsToLower order.user) (jsToLower filters.user) = true

/-- Condition (b) of the spec's Filter Engine, from the spec's words:
`inputMint` equals the input-mint selector or the selector is empty. -/
def specCondInputEq (filters : Filters) (order : DCAOrder) : Prop :=
  filters.inputMint = "" ∨ order.inputMint = filters.inputMint

/-- Condition (c) of the spec's Filter Engine, from the spec's words:
`outputMint` equals the output-mint selector or the selector is empty. -/
def specCondOutputEq (filters : Filters) (order : DCAOrder) : Prop :=
  filters.outputMint = "" ∨ order.outputMint = filters.outputMint

/-- Condition (d) of the spec's Filter Engine, from the spec's words: the
free-text search string is, case-insensitively, a substring of at least one
of `user`, `inputMint`, `outputMint`. -/
def specCondSearch (filters : Filters) (order : DCAOrder) : Prop :=
  jsIncludes (jsToLower order.user) (jsToLower filters.search) = true ∨
    jsIncludes (jsToLower order.inputMint) (jsToLower filters.search) = true ∨
    jsIncludes (jsToLower order.outputMint) (jsToLower filters.search) = true

/-- Substring variant of condition (b) implemented by
`JupiterDCAViewer.tsx`: `inputMint` contains the input-mint selector,
case-insensitively (an empty selector is contained in everything). -/
def specCondInputSub (filters : Filters) (order : DCAOrder) : Prop :=
  jsIncludes (jsToLower order.inputMint) (jsToLower filters.inputMint) = true

/-- Substring variant of condition (c) implemented by
`JupiterDCAViewer.tsx`. -/
def specCondOutputSub (filters : Filters) (order : DCAOrder) : Prop :=
  jsIncludes (jsToLower order.outputMint) (jsToLower filters.outputMint) = true

/-- Sample order taken from the spec's §8 scenario with `now = 0`:
`{user:"u1", inputMint:"SOL", outputMint:"BTC", amount:100, executeAt: now+30min}`. -/
def sampleSol : DCAOrder :=
  { id := "order-0", user := "u1", inputMint := "SOL", outputMint := "BTC",
    amount := 100, frequency := "daily", createdAt := 0, executeAt := 1800000 }

/-- Sample order taken from the spec's §8 scenario with `now = 0`:
`{user:"u2", inputMint:"USDC", outputMint:"RAY", amount:50, executeAt: now+2h}`. -/
def sampleUsdc : DCAOrder :=
  { id := "order-1", user := "u2", inputMint := "USDC", outputMint := "RAY",
    amount := 50, frequency := "weekly", createdAt := 0, executeAt := 7200000 }

/-- Sample past-due order: `executeAt` one second before `now = 0`. -/
def samplePast : DCAOrder :=
  { id := "order-2", user := "u3", inputMint := "ETH", outputMint := "USDT",
    amount := 10, frequency := "monthly", createdAt := -10, executeAt := -1000 }

/-- Sample order whose `inputMint` strictly contains the selector `"SOL"`. -/
def sampleSolx : DCAOrder :=
  { id := "order-3", user := "u4", inputMint := "SOLX", outputMint := "BTC",
    amount := 7, frequency := "daily", createdAt := 0, executeAt := 100 }

/-- Filter criteria selecting input mint `"SOL"` and nothing else. -/
def filtersSol : Filters :=
  { search := "", inputMint := "SOL", outputMint := "", user := "" }

/-- Sample order sharing the token pair `BTC-SOL` of `sampleSol` but
belonging to a different user. -/
def sampleSol2 : DCAOrder :=
  { id := "order-9", user := "u9", inputMint := "SOL", outputMint := "BTC",
    amount := 25, frequency := "weekly", createdAt := 5, executeAt := 2400000 }

/-- C1 (counterexample): the claim's biconditional fails on the
`JupiterDCAViewer.tsx` filter engine.  With input-mint selector `"SOL"`, an
order whose `inputMint` is `"SOLX"` is kept by that engine even though its
`inputMint` equals neither the selector nor is the selector empty, because
the variant tests the mint selectors by substring containment rather than
by equality. -/
theorem c1_filter_and_counterexample :
    ¬ (sampleSolx ∈ filterEngineTsx filtersSol [sampleSolx] ↔
        sampleSolx ∈ [sampleSolx] ∧ specCondUser filtersSol sampleSolx ∧
          specCondInputEq filtersSol sampleSolx ∧
          specCondOutputEq filtersSol sampleSolx ∧
          specCondSearch filtersSol sampleSolx) := by
  simp only [specCondUser, specCondInputEq, specCondOutputEq, specCondSearch]
  decide

/-- C1 (amended): the `part_001`/`part_002` filter engine keeps an order if
and only if all four spec conditions hold, with (b) and (c) read as
equality-or-empty; the `JupiterDCAViewer.tsx` variant keeps an order if and
only if (a) and (d) hold and each mint field contains its selector
case-insensitively.  In both variants the free-text search is AND-ed with
the dedicated filters, never OR-ed. -/
theorem c1_filter_characterization (filters : Filters) (orders : List DCAOrder)
    (order : DCAOrder) :
    (order ∈ filterEngineP1 filters orders ↔
      order ∈ orders ∧ specCondUser filters order ∧ specCondInputEq filters order ∧
        specCondOutputEq filters order ∧ specCondSearch filters order) ∧
    (order ∈ filterEngineTsx filters orders ↔
      order ∈ orders ∧ specCondUser filters order ∧ specCondInputSub filters order ∧
        specCondOutputSub filters order ∧ specCondSearch filters order) := by
  constructor
  · simp only [filterEngineP1, List.mem_filter, keepOrderP1, Bool.and_eq_true,
      Bool.or_eq_true, beq_iff_eq, specCondUser, specCondInputEq, specCondOutputEq,
      specCondSearch]
    tauto
  · simp only [filterEngineTsx, List.mem_filter, keepOrderTsx, Bool.and_eq_true,
      Bool.or_eq_true, specCondUser, specCondInputSub, specCondOutputSub,
      specCondSearch]
    tauto

/-- C2: the time-window partitioner keeps, for `NEXT_HOUR`, exactly the
orders with `now < executeAt ≤ now + 1h`; for `NEXT_DAY`, exactly those
with `now < executeAt ≤ now + 24h`; for `ALL` it is the identity; and every
past-due order (`executeAt ≤ now`) is excluded from the first two windows. -/
theorem c2_partitioner (now : ℤ) (orders : List DCAOrder) (order : DCAOrder) :
    (order ∈ relevantOrders .nextHour now orders ↔
      order ∈ orders ∧ now < order.executeAt ∧ order.executeAt ≤ now + 3600000) ∧
    (order ∈ relevantOrders .nextDay now orders ↔
      order ∈ orders ∧ now < order.executeAt ∧ order.executeAt ≤ now + 86400000) ∧
    relevantOrders .all now orders = orders ∧
    (order.executeAt ≤ now →
      order ∉ relevantOrders .nextHour now orders ∧
        order ∉ relevantOrders .nextDay now orders) := by
  refine ⟨?_, ?_, ?_, ?_⟩
  · simp [relevantOrders, List.mem_filter]
  · simp [relevantOrders, List.mem_filter]
  · simp [relevantOrders]
  · intro h
    constructor <;> simp [relevantOrders, List.mem_filter] <;> omega

/-- C2 (witness): with `now = 0`, the past-due sample order is excluded
from both the next-hour and the next-day windows. -/
theorem c2_partitioner_witness :
    samplePast ∉ relevantOrders .nextHour 0 [samplePast] ∧
      samplePast ∉ relevantOrders .nextDay 0 [samplePast] :=
  (c2_partitioner 0 [samplePast] samplePast).2.2.2 (by decide)

/-- C3: the partition outputs are nested: the next-hour window is contained
in the next-day window, which is contained in the `ALL` output, and the
`ALL` output equals the input order set. -/
theorem c3_partition_nested (now : ℤ) (orders : List DCAOrder) :
    relevantOrders .nextHour now orders ⊆ relevantOrders .nextDay now orders ∧
      relevantOrders .nextDay now orders ⊆ relevantOrders .all now orders ∧
      relevantOrders .all now orders = orders := by
  refine ⟨?_, ?_, by simp [relevantOrders]⟩
  · intro a ha
    simp only [relevantOrders, List.mem_filter, Bool.and_eq_true, decide_eq_true_eq] at *
    exact ⟨ha.1, ha.2.1, by omega⟩
  · intro a ha
    simp only [relevantOrders, List.mem_filter, Bool.and_eq_true, decide_eq_true_eq] at *
    exact ⟨ha.1, trivial⟩

/-- C3 (witness): the nesting law evaluated on the spec's §8 scenario list
with `now = 0`. -/
theorem c3_partition_nested_witness :
    relevantOrders .nextHour 0 [sampleSol, sampleUsdc] ⊆
        relevantOrders .nextDay 0 [sampleSol, sampleUsdc] ∧
      relevantOrders .nextDay 0 [sampleSol, sampleUsdc] ⊆
          relevantOrders .all 0 [sampleSol, sampleUsdc] ∧
      relevantOrders .all 0 [sampleSol, sampleUsdc] = [sampleSol, sampleUsdc] :=
  c3_partition_nested 0 [sampleSol, sampleUsdc]

/-- C9: the filter engine is idempotent: filtering twice with the same
criteria equals filtering once. -/
theorem c9_filter_idempotent (filters : Filters) (orders : List DCAOrder) :
    filterEngineP1 filters (filterEngineP1 filters orders) =
      filterEngineP1 filters orders := by
  simp [filterEngineP1, List.filter_filter]

/-- C10: the combined time-window partitioner and filter engine of
`part_001` yields a subsequence of the input list (each retained record
appears once, unmodified, in its original relative order), and so does the
`JupiterDCAViewer.tsx` filter engine. -/
theorem c10_pipeline_sublist (tab : Tab) (now : ℤ) (filters : Filters)
    (orders : List DCAOrder) :
    (filterEngineP1 filters (relevantOrders tab now orders)).Sublist orders ∧
      (filterEngineTsx filters orders).Sublist orders :=
  ⟨(List.filter_sublist _).trans (List.filter_sublist _), List.filter_sublist _⟩

/-- Rewrites a filtered-map amount sum as a sum of guarded amounts. -/
theorem sum_map_filter_eq (p : DCAOrder → Bool) (l : List DCAOrder) :
    ((l.filter p).map DCAOrder.amount).sum =
      (l.map fun o => if p o then o.amount else 0).sum := by
  induction l with
  | nil => simp
  | cons a t ih =>
    cases h : p a <;> simp [List.filter_cons, h, ih]

/-- Relates a sum over `List.range` to the corresponding `Finset` sum. -/
theorem listSum_range (n : ℕ) (f : ℕ → ℚ) :
    ((List.range n).map f).sum = ∑ i ∈ Finset.range n, f i := by
  induction n with
  | zero => simp
  | succ n ih => simp [List.range_succ, Finset.sum_range_succ, ih]

/-- Swaps a bucket-indexed sum of per-order sums into a per-order sum of
bucket-indexed sums. -/
theorem finsetSum_listSum_comm (n : ℕ) (l : List DCAOrder) (g : ℕ → DCAOrder → ℚ) :
    (∑ i ∈ Finset.range n, (l.map (g i)).sum) =
      (l.map fun o => ∑ i ∈ Finset.range n, g i o).sum := by
  induction l with
  | nil => simp
  | cons a t ih => simp [List.map_cons, List.sum_cons, Finset.sum_add_distrib, ih]

/-- Exactly one of the 24 contiguous half-open hourly buckets starting at
`p` contains an instant `e` of `[p, p + 24h)`, and none contains an instant
outside that range. -/
theorem bucket_indicator (e p : ℤ) (a : ℚ) :
    (∑ i ∈ Finset.range 24,
        if p + i * 3600000 ≤ e ∧ e < p + i * 3600000 + 3600000 then a else 0) =
      if p ≤ e ∧ e < p + 86400000 then a else 0 := by
  by_cases h : p ≤ e ∧ e < p + 86400000
  · rw [if_pos h]
    have hd : 0 ≤ e - p := by omega
    have hqr := Int.ediv_add_emod (e - p) 3600000
    have hr0 : 0 ≤ (e - p) % 3600000 := Int.emod_nonneg _ (by norm_num)
    have hrlt : (e - p) % 3600000 < 3600000 := Int.emod_lt_of_pos _ (by norm_num)
    have hq0 : 0 ≤ (e - p) / 3600000 := Int.ediv_nonneg hd (by norm_num)
    have hqt : (((e - p) / 3600000).toNat : ℤ) = (e - p) / 3600000 :=
      Int.toNat_of_nonneg hq0
    have hmem : ((e - p) / 3600000).toNat ∈ Finset.range 24 := by
      refine Finset.mem_range.mpr ?_
      omega
    rw [Finset.sum_eq_single_of_mem _ hmem ?_]
    · rw [if_pos]
      constructor <;> omega
    · intro b hb hbne
      have hblt : b < 24 := Finset.mem_range.mp hb
      rw [if_neg]
      intro hcon
      apply hbne
      omega
  · rw [if_neg h]
    apply Finset.sum_eq_zero
    intro i hi
    have : i < 24 := Finset.mem_range.mp hi
    rw [if_neg]
    intro hcon
    apply h
    constructor <;> omega

/-- Each order contributes its amount to exactly one bucket when it is a
USDC order of the trailing 24-hour range, and to none otherwise. -/
theorem per_order_bucket (now : ℤ) (o : DCAOrder) :
    (∑ i ∈ Finset.range 24, if inUSDCBucket now i o then o.amount else 0) =
      if (o.inputMint == "USDC") && decide (past24Hours now ≤ o.executeAt) &&
          decide (o.executeAt < now) then o.amount else 0 := by
  by_cases hu : o.inputMint = "USDC"
  · simp only [inUSDCBucket, hourStart, hu, beq_self_eq_true, Bool.and_true,
      Bool.and_eq_true, decide_eq_true_eq, Bool.true_and]
    have hnow : (past24Hours now ≤ o.executeAt ∧ o.executeAt < now) ↔
        (past24Hours now ≤ o.executeAt ∧
          o.executeAt < past24Hours now + 86400000) := by
      unfold past24Hours
      omega
    rw [if_congr hnow rfl rfl, ← bucket_indicator o.executeAt (past24Hours now) o.amount]
  · simp [inUSDCBucket, beq_iff_eq, hu]

/-- C4: the sum of the 24 aggregation bucket values equals the sum of
`amount` over exactly the orders whose `inputMint` is `"USDC"` and whose
`executeAt` lies in the trailing 24-hour range `[now - 24h, now)`: the
half-open contiguous buckets neither double-count an order nor drop one on
a bucket boundary. -/
theorem c4_aggregation_conservation (now : ℤ) (orders : List DCAOrder) :
    (aggregateData now orders).sum =
      ((orders.filter fun o =>
          (o.inputMint == "USDC") && decide (past24Hours now ≤ o.executeAt) &&
            decide (o.executeAt < now)).map DCAOrder.amount).sum := by
  unfold aggregateData
  rw [listSum_range, sum_map_filter_eq]
  simp only [sum_map_filter_eq]
  rw [finsetSum_listSum_comm]
  simp only [per_order_bucket]

/-- C5: the aggregation engine always returns exactly 24 labels and 24
values, and a bucket with no matching order has value zero. -/
theorem c5_bucket_completeness (now : ℤ) (orders : List DCAOrder) :
    (aggregateLabels now).length = 24 ∧ (aggregateData now orders).length = 24 ∧
      ∀ i : ℕ, i < 24 → orders.filter (inUSDCBucket now i) = [] →
        (aggregateData now orders).getD i 0 = 0 := by
  refine ⟨by simp [aggregateLabels], by simp [aggregateData], ?_⟩
  intro i hi hempty
  unfold aggregateData
  rw [List.getD_eq_getElem?_getD, List.getElem?_map, List.getElem?_range hi]
  simp [hempty]

/-- C5 (witness): with no orders at all, the engine still returns 24 labels
and 24 values and bucket 3 is zero. -/
theorem c5_bucket_completeness_witness :
    (aggregateLabels 0).length = 24 ∧ (aggregateData 0 []).length = 24 ∧
      (aggregateData 0 []).getD 3 0 = 0 := by
  obtain ⟨h1, h2, h3⟩ := c5_bucket_completeness 0 []
  exact ⟨h1, h2, h3 3 (by norm_num) rfl⟩

/-- Irreflexivity of the code-unit string order. -/
theorem charsLt_irrefl (l : List Char) : charsLt l l = false := by
  induction l with
  | nil => rfl
  | cons c cs ih => simp [charsLt, ih]

/-- Asymmetry of the code-unit string order. -/
theorem charsLt_asymm (a : List Char) :
    ∀ b, charsLt a b = true → charsLt b a = false := by
  induction a with
  | nil =>
    intro b h
    cases b with
    | nil => simp [charsLt] at h
    | cons d ds => rfl
  | cons c cs ih =>
    intro b h
    cases b with
    | nil => simp [charsLt] at h
    | cons d ds =>
      simp only [charsLt, Bool.or_eq_true, Bool.and_eq_true, decide_eq_true_eq,
        beq_iff_eq] at h
      rcases h with hlt | ⟨heq, htail⟩
      · have h1 : decide (d < c) = false := decide_eq_false (lt_asymm hlt)
        have h2 : (d == c) = false := beq_eq_false_iff_ne.mpr (ne_of_gt hlt)
        simp [charsLt, h1, h2]
      · subst heq
        simp [charsLt, ih ds htail]

/-- Totality of the code-unit string order on distinct strings. -/
theorem charsLt_conn (a : List Char) :
    ∀ b, a ≠ b → charsLt a b = true ∨ charsLt b a = true := by
  induction a with
  | nil =>
    intro b hne
    cases b with
    | nil => exact absurd rfl hne
    | cons d ds => exact Or.inl rfl
  | cons c cs ih =>
    intro b hne
    cases b with
    | nil => exact Or.inr rfl
    | cons d ds =>
      rcases lt_trichotomy c d with h | h | h
      · exact Or.inl (by simp [charsLt, h])
      · subst h
        have hne2 : cs ≠ ds := fun he => hne (by rw [he])
        rcases ih ds hne2 with h1 | h1
        · exact Or.inl (by simp [charsLt, h1])
        · exact Or.inr (by simp [charsLt, h1])
      · exact Or.inr (by simp [charsLt, h])

/-- Transitivity of the code-unit string order. -/
theorem charsLt_trans (a : List Char) :
    ∀ b c, charsLt a b = true → charsLt b c = true → charsLt a c = true := by
  induction a with
  | nil =>
    intro b c h1 h2
    cases b with
    | nil => simp [charsLt] at h1
    | cons y ys =>
      cases c with
      | nil => simp [charsLt] at h2
      | cons z zs => rfl
  | cons x xs ih =>
    intro b c h1 h2
    cases b with
    | nil => simp [charsLt] at h1
    | cons y ys =>
      cases c with
      | nil => simp [charsLt] at h2
      | cons z zs =>
        simp only [charsLt, Bool.or_eq_true, Bool.and_eq_true, decide_eq_true_eq,
          beq_iff_eq] at h1 h2 ⊢
        rcases h1 with h1 | ⟨hxy, h1t⟩ <;> rcases h2 with h2 | ⟨hyz, h2t⟩
        · exact Or.inl (lt_trans h1 h2)
        · exact Or.inl (hyz ▸ h1)
        · exact Or.inl (hxy ▸ h2)
        · exact Or.inr ⟨hxy.trans hyz, ih ys zs h1t h2t⟩

/-- Unequal strings have unequal character lists. -/
theorem strData_ne (s t : String) (hne : s ≠ t) : s.data ≠ t.data := by
  intro he
  apply hne
  cases s
  cases t
  exact congrArg String.mk he

/-- Transitivity of the JavaScript string comparison. -/
theorem jsStrLt_trans (s t u : String) (h1 : jsStrLt s t = true)
    (h2 : jsStrLt t u = true) : jsStrLt s u = true :=
  charsLt_trans s.data t.data u.data h1 h2

/-- Asymmetry of the JavaScript string comparison. -/
theorem jsStrLt_asymm (s t : String) (h : jsStrLt s t = true) :
    jsStrLt t s = false :=
  charsLt_asymm s.data t.data h

/-- Totality of the JavaScript string comparison on distinct strings. -/
theorem jsStrLt_conn (s t : String) (hne : s ≠ t) :
    jsStrLt s t = true ∨ jsStrLt t s = true :=
  charsLt_conn s.data t.data (strData_ne s t hne)

/-- Transitivity of the decided strict order of a linear order. -/
theorem dlt_trans {K : Type} [LinearOrder K] (x y z : K)
    (h1 : decide (x < y) = true) (h2 : decide (y < z) = true) :
    decide (x < z) = true := by
  simp only [decide_eq_true_eq] at *
  exact lt_trans h1 h2

/-- Asymmetry of the decided strict order of a linear order. -/
theorem dlt_asymm {K : Type} [LinearOrder K] (x y : K)
    (h : decide (x < y) = true) : decide (y < x) = false := by
  simp only [decide_eq_true_eq, decide_eq_false_iff_not] at *
  exact lt_asymm h

/-- Totality of the decided strict order of a linear order. -/
theorem dlt_conn {K : Type} [LinearOrder K] (x y : K) (hne : x ≠ y) :
    decide (x < y) = true ∨ decide (y < x) = true := by
  simp only [decide_eq_true_eq]
  exact lt_or_gt_of_ne hne

/-- Membership through the insertion step of the stable-sort model. -/
theorem mem_jsStableInsert (le : DCAOrder → DCAOrder → Bool) (a x : DCAOrder) :
    ∀ l, (x ∈ jsStableInsert le a l ↔ x = a ∨ x ∈ l) := by
  intro l
  induction l with
  | nil => simp [jsStableInsert]
  | cons b t ih =>
    cases hab : le a b
    · simp only [jsStableInsert, hab, Bool.false_eq_true, if_false, List.mem_cons, ih]
      tauto
    · simp [jsStableInsert, hab]

/-- The stable-sort model preserves membership. -/
theorem mem_jsSort (le : DCAOrder → DCAOrder → Bool) (x : DCAOrder) :
    ∀ l, (x ∈ jsSort le l ↔ x ∈ l) := by
  intro l
  induction l with
  | nil => simp [jsSort]
  | cons a t ih =>
    simp [jsSort, mem_jsStableInsert, ih]

/-- An element below nothing of the list is inserted at its end. -/
theorem jsStableInsert_all_false (le : DCAOrder → DCAOrder → Bool) (a : DCAOrder) :
    ∀ l, (∀ b ∈ l, le a b = false) → jsStableInsert le a l = l ++ [a] := by
  intro l
  induction l with
  | nil => intro _; rfl
  | cons b t ih =>
    intro h
    have hb : le a b = false := h b (List.mem_cons_self b t)
    simp [jsStableInsert, hb, ih fun x hx => h x (List.mem_cons_of_mem b hx)]

/-- Insertion commutes with appending a final element the inserted one is
below. -/
theorem jsStableInsert_append_last (le : DCAOrder → DCAOrder → Bool)
    (a w : DCAOrder) (h : le a w = true) :
    ∀ l, jsStableInsert le a (l ++ [w]) = jsStableInsert le a l ++ [w] := by
  intro l
  induction l with
  | nil => simp [jsStableInsert, h]
  | cons b t ih =>
    cases hab : le a b <;> simp [jsStableInsert, hab, ih]

/-- Inserting into a sorted list keeps it sorted, given transitivity and
that the new element compares both ways with every list element. -/
theorem pairwise_jsStableInsert (le : DCAOrder → DCAOrder → Bool)
    (htrans : ∀ x y z, le x y = true → le y z = true → le x z = true)
    (a : DCAOrder) :
    ∀ l, l.Pairwise (fun x y => le x y = true) →
      (∀ b ∈ l, le a b = !le b a) →
      (jsStableInsert le a l).Pairwise (fun x y => le x y = true) := by
  intro l
  induction l with
  | nil =>
    intro _ _
    simp [jsStableInsert]
  | cons b t ih =>
    intro hsort hexo
    rw [List.pairwise_cons] at hsort
    cases hab : le a b with
    | true =>
      have hstep : jsStableInsert le a (b :: t) = a :: b :: t := by
        simp [jsStableInsert, hab]
      rw [hstep]
      refine List.pairwise_cons.mpr ⟨?_, List.pairwise_cons.mpr hsort⟩
      intro m hm
      rcases List.mem_cons.mp hm with rfl | hm2
      · exact hab
      · exact htrans a b m hab (hsort.1 m hm2)
    | false =>
      have hba : le b a = true := by
        have h := hexo b (List.mem_cons_self b t)
        rw [hab] at h
        cases hba2 : le b a
        · rw [hba2] at h
          simp at h
        · rfl
      have hstep : jsStableInsert le a (b :: t) = b :: jsStableInsert le a t := by
        simp [jsStableInsert, hab]
      rw [hstep]
      refine List.pairwise_cons.mpr
        ⟨?_, ih hsort.2 fun m hm => hexo m (List.mem_cons_of_mem b hm)⟩
      intro m hm
      rcases (mem_jsStableInsert le a m t).mp hm with rfl | hm2
      · exact hba
      · exact hsort.1 m hm2

/-- Reversal of an insertion into a sorted list is an insertion by the
flipped relation into the reversed list. -/
theorem jsStableInsert_reverse (le : DCAOrder → DCAOrder → Bool)
    (htrans : ∀ x y z, le x y = true → le y z = true → le x z = true)
    (a : DCAOrder) :
    ∀ l, l.Pairwise (fun x y => le x y = true) →
      (∀ b ∈ l, le a b = !le b a) →
      (jsStableInsert le a l).reverse =
        jsStableInsert (fun x y => le y x) a l.reverse := by
  intro l
  induction l with
  | nil =>
    intro _ _
    rfl
  | cons b t ih =>
    intro hsort hexo
    rw [List.pairwise_cons] at hsort
    cases hab : le a b with
    | true =>
      have hba : le b a = false := by
        have h := hexo b (List.mem_cons_self b t)
        rw [hab] at h
        cases hba2 : le b a
        · rfl
        · rw [hba2] at h
          simp at h
      have hall : ∀ x ∈ t.reverse ++ [b], le x a = false := by
        intro x hx
        rcases List.mem_append.mp hx with hx2 | hx2
        · have hxt : x ∈ t := List.mem_reverse.mp hx2
          have hax : le a x = true := htrans a b x hab (hsort.1 x hxt)
          have h := hexo x (List.mem_cons_of_mem b hxt)
          rw [hax] at h
          cases hxa : le x a
          · rfl
          · rw [hxa] at h
            simp at h
        · have hxb : x = b := List.mem_singleton.mp hx2
          rw [hxb]
          exact hba
      have hstep : jsStableInsert le a (b :: t) = a :: b :: t := by
        simp [jsStableInsert, hab]
      have hrhs : jsStableInsert (fun x y => le y x) a ((b :: t).reverse) =
          (b :: t).reverse ++ [a] := by
        apply jsStableInsert_all_false
        intro x hx
        exact hall x (by simpa [List.reverse_cons] using hx)
      rw [hstep, hrhs]
      exact List.reverse_cons a (b :: t)
    | false =>
      have hba : le b a = true := by
        have h := hexo b (List.mem_cons_self b t)
        rw [hab] at h
        cases hba2 : le b a
        · rw [hba2] at h
          simp at h
        · rfl
      have hstep : jsStableInsert le a (b :: t) = b :: jsStableInsert le a t := by
        simp [jsStableInsert, hab]
      rw [hstep, List.reverse_cons,
        ih hsort.2 fun m hm => hexo m (List.mem_cons_of_mem b hm),
        List.reverse_cons, jsStableInsert_append_last (fun x y => le y x) a b hba]

/-- The stable-sort model produces a sorted list on inputs without ties. -/
theorem pairwise_jsSort (le : DCAOrder → DCAOrder → Bool)
    (htrans : ∀ x y z, le x y = true → le y z = true → le x z = true) :
    ∀ l, l.Nodup → (∀ x ∈ l, ∀ y ∈ l, x ≠ y → le x y = !le y x) →
      (jsSort le l).Pairwise (fun x y => le x y = true) := by
  intro l
  induction l with
  | nil =>
    intro _ _
    simp [jsSort]
  | cons a t ih =>
    intro hnd hexo
    rw [List.nodup_cons] at hnd
    have hext : ∀ x ∈ t, ∀ y ∈ t, x ≠ y → le x y = !le y x := fun x hx y hy =>
      hexo x (List.mem_cons_of_mem a hx) y (List.mem_cons_of_mem a hy)
    show (jsStableInsert le a (jsSort le t)).Pairwise fun x y => le x y = true
    apply pairwise_jsStableInsert le htrans a _ (ih hnd.2 hext)
    intro b hb
    have hbt : b ∈ t := (mem_jsSort le b t).mp hb
    exact hexo a (List.mem_cons_self a t) b (List.mem_cons_of_mem a hbt)
      fun h => hnd.1 (by rw [h]; exact hbt)

/-- Reversing a stable sort by a relation without ties on the list equals
the stable sort by the flipped relation. -/
theorem jsSort_reverse_eq (le : DCAOrder → DCAOrder → Bool)
    (htrans : ∀ x y z, le x y = true → le y z = true → le x z = true) :
    ∀ l, l.Nodup → (∀ x ∈ l, ∀ y ∈ l, x ≠ y → le x y = !le y x) →
      (jsSort le l).reverse = jsSort (fun x y => le y x) l := by
  intro l
  induction l with
  | nil =>
    intro _ _
    rfl
  | cons a t ih =>
    intro hnd hexo
    rw [List.nodup_cons] at hnd
    have hext : ∀ x ∈ t, ∀ y ∈ t, x ≠ y → le x y = !le y x := fun x hx y hy =>
      hexo x (List.mem_cons_of_mem a hx) y (List.mem_cons_of_mem a hy)
    have hS := pairwise_jsSort le htrans t hnd.2 hext
    have hexa : ∀ b ∈ jsSort le t, le a b = !le b a := by
      intro b hb
      have hbt : b ∈ t := (mem_jsSort le b t).mp hb
      exact hexo a (List.mem_cons_self a t) b (List.mem_cons_of_mem a hbt)
        fun h => hnd.1 (by rw [h]; exact hbt)
    show (jsStableInsert le a (jsSort le t)).reverse =
      jsStableInsert (fun x y => le y x) a (jsSort (fun x y => le y x) t)
    rw [jsStableInsert_reverse le htrans a (jsSort le t) hS hexa, ih hnd.2 hext]

/-- Reverse-law for a sort by a strict key comparison: on a list whose key
values are pairwise distinct, reversing the sort by `blt` on the key equals
the sort by the flipped comparison. -/
theorem jsSort_rev_key {K : Type} (kv : DCAOrder → K) (blt : K → K → Bool)
    (htrans : ∀ x y z, blt x y = true → blt y z = true → blt x z = true)
    (hasymm : ∀ x y, blt x y = true → blt y x = false)
    (hconn : ∀ x y, x ≠ y → blt x y = true ∨ blt y x = true)
    (l : List DCAOrder) (hpw : l.Pairwise fun a b => kv a ≠ kv b) :
    (jsSort (fun a b => blt (kv a) (kv b)) l).reverse =
      jsSort (fun a b => blt (kv b) (kv a)) l := by
  have hsymm : Symmetric fun a b : DCAOrder => kv a ≠ kv b :=
    fun a b h => fun he => h he.symm
  have hforall : ∀ x ∈ l, ∀ y ∈ l, x ≠ y → kv x ≠ kv y :=
    fun x hx y hy hne => (List.Pairwise.forall hsymm hpw) hx hy hne
  apply jsSort_reverse_eq
  · intro x y z h1 h2
    exact htrans _ _ _ h1 h2
  · exact hpw.imp fun h => fun he => h (congrArg kv he)
  · intro x hx y hy hne
    have hk := hforall x hx y hy hne
    show blt (kv x) (kv y) = !blt (kv y) (kv x)
    rcases hconn _ _ hk with h | h
    · rw [h, hasymm _ _ h]
      rfl
    · rw [h, hasymm _ _ h]
      rfl

/-- Reverse-law for a sort by a non-strict key comparison (the complement
of the flipped strict one, as produced by a three-way comparator that
returns 0 on ties). -/
theorem jsSort_rev_key_le {K : Type} (kv : DCAOrder → K) (blt : K → K → Bool)
    (htrans : ∀ x y z, blt x y = true → blt y z = true → blt x z = true)
    (hasymm : ∀ x y, blt x y = true → blt y x = false)
    (hconn : ∀ x y, x ≠ y → blt x y = true ∨ blt y x = true)
    (l : List DCAOrder) (hpw : l.Pairwise fun a b => kv a ≠ kv b) :
    (jsSort (fun a b => !blt (kv b) (kv a)) l).reverse =
      jsSort (fun a b => !blt (kv a) (kv b)) l := by
  have hsymm : Symmetric fun a b : DCAOrder => kv a ≠ kv b :=
    fun a b h => fun he => h he.symm
  have hforall : ∀ x ∈ l, ∀ y ∈ l, x ≠ y → kv x ≠ kv y :=
    fun x hx y hy hne => (List.Pairwise.forall hsymm hpw) hx hy hne
  apply jsSort_reverse_eq
  · intro x y z h1 h2
    show (!blt (kv z) (kv x)) = true
    have h1f : blt (kv y) (kv x) = false := by
      cases hb : blt (kv y) (kv x)
      · rfl
      · rw [hb] at h1
        simp at h1
    have h2f : blt (kv z) (kv y) = false := by
      cases hb : blt (kv z) (kv y)
      · rfl
      · rw [hb] at h2
        simp at h2
    cases hzx : blt (kv z) (kv x)
    · rfl
    · by_cases hzy : kv z = kv y
      · rw [hzy] at hzx
        rw [hzx] at h1f
        exact Bool.noConfusion h1f
      · rcases hconn _ _ hzy with h | h
        · rw [h] at h2f
          exact Bool.noConfusion h2f
        · have hyx := htrans _ _ _ h hzx
          rw [hyx] at h1f
          exact Bool.noConfusion h1f
  · exact hpw.imp fun h => fun he => h (congrArg kv he)
  · intro x hx y hy hne
    have hk := hforall x hx y hy hne
    show (!blt (kv y) (kv x)) = !(!blt (kv x) (kv y))
    rcases hconn _ _ hk with h | h
    · rw [h, hasymm _ _ h]
      rfl
    · rw [h, hasymm _ _ h]
      rfl

/-- A sort whose relation is constantly true (a comparator that always
returns a non-positive value) leaves the list unchanged. -/
theorem jsSort_const_true : ∀ l : List DCAOrder, jsSort (fun _ _ => true) l = l := by
  intro l
  induction l with
  | nil => rfl
  | cons a t ih =>
    show jsStableInsert (fun _ _ => true) a (jsSort (fun _ _ => true) t) = a :: t
    rw [ih]
    cases t with
    | nil => rfl
    | cons b t2 => rfl

/-- Evaluates the non-positivity test of the two-branch comparator
`cond ? -1 : 1`. -/
theorem decide_cmp_ite (b : Bool) :
    decide ((if b then (-1 : ℤ) else 1) ≤ 0) = b := by
  cases b <;> decide

/-- Evaluates the non-positivity test of the modelled `localeCompare`. -/
theorem decide_locale_le (s t : String) :
    decide (localeCompare s t ≤ 0) = !jsStrLt t s := by
  cases h1 : jsStrLt s t
  · cases h2 : jsStrLt t s
    · simp [localeCompare, h1, h2]
    · simp [localeCompare, h1, h2]
  · have h2 : jsStrLt t s = false := jsStrLt_asymm s t h1
    simp [localeCompare, h1, h2]

/-- C6 (counterexample): with the derived token-pair key, sorting ascending
and then reversing differs from sorting descending on a list with two
orders sharing the token pair `BTC-SOL`: the stable sort keeps tied
elements in input order in both directions, and the reversal flips them. -/
theorem c6_sort_tie_counterexample :
    ¬ ((sortEngineP1 "tokenPair" (some Dir.ascend) [sampleSol, sampleSol2]).reverse =
        sortEngineP1 "tokenPair" (some Dir.descend) [sampleSol, sampleSol2]) := by
  decide

/-- C6 (amended): for every valid sort key of `part_001` (each record field
and the derived token pair) and every order list whose values under that
key are pairwise distinct, sorting ascending and then reversing the result
equals sorting descending; ties break the law because the sort is stable. -/
theorem c6_sort_reverse_law (key : String) (hkey : key ∈ validSortKeysP1)
    (l : List DCAOrder)
    (hpw : l.Pairwise fun a b => sortKeyVal key a ≠ sortKeyVal key b) :
    (sortEngineP1 key (some Dir.ascend) l).reverse =
      sortEngineP1 key (some Dir.descend) l := by
  have hkey2 : key = "id" ∨ key = "user" ∨ key = "inputMint" ∨ key = "outputMint" ∨
      key = "amount" ∨ key = "frequency" ∨ key = "createdAt" ∨ key = "executeAt" ∨
      key = "tokenPair" := by
    simpa [validSortKeysP1] using hkey
  unfold sortEngineP1
  rcases hkey2 with rfl | rfl | rfl | rfl | rfl | rfl | rfl | rfl | rfl
  · rw [show (fun a b : DCAOrder => decide (cmpP1 "id" (some Dir.ascend) a b ≤ 0)) =
          fun a b : DCAOrder => jsStrLt a.id b.id from
        funext fun a => funext fun b => decide_cmp_ite _,
      show (fun a b : DCAOrder => decide (cmpP1 "id" (some Dir.descend) a b ≤ 0)) =
          fun a b : DCAOrder => jsStrLt b.id a.id from
        funext fun a => funext fun b => decide_cmp_ite _]
    exact jsSort_rev_key (fun o => o.id) jsStrLt jsStrLt_trans jsStrLt_asymm
      jsStrLt_conn l (hpw.imp fun h => fun he => h (congrArg JsVal.str he))
  · rw [show (fun a b : DCAOrder => decide (cmpP1 "user" (some Dir.ascend) a b ≤ 0)) =
          fun a b : DCAOrder => jsStrLt a.user b.user from
        funext fun a => funext fun b => decide_cmp_ite _,
      show (fun a b : DCAOrder => decide (cmpP1 "user" (some Dir.descend) a b ≤ 0)) =
          fun a b : DCAOrder => jsStrLt b.user a.user from
        funext fun a => funext fun b => decide_cmp_ite _]
    exact jsSort_rev_key (fun o => o.user) jsStrLt jsStrLt_trans jsStrLt_asymm
      jsStrLt_conn l (hpw.imp fun h => fun he => h (congrArg JsVal.str he))
  · rw [show (fun a b : DCAOrder =>
            decide (cmpP1 "inputMint" (some Dir.ascend) a b ≤ 0)) =
          fun a b : DCAOrder => jsStrLt a.inputMint b.inputMint from
        funext fun a => funext fun b => decide_cmp_ite _,
      show (fun a b : DCAOrder =>
            decide (cmpP1 "inputMint" (some Dir.descend) a b ≤ 0)) =
          fun a b : DCAOrder => jsStrLt b.inputMint a.inputMint from
        funext fun a => funext fun b => decide_cmp_ite _]
    exact jsSort_rev_key (fun o => o.inputMint) jsStrLt jsStrLt_trans jsStrLt_asymm
      jsStrLt_conn l (hpw.imp fun h => fun he => h (congrArg JsVal.str he))
  · rw [show (fun a b : DCAOrder =>
            decide (cmpP1 "outputMint" (some Dir.ascend) a b ≤ 0)) =
          fun a b : DCAOrder => jsStrLt a.outputMint b.outputMint from
        funext fun a => funext fun b => decide_cmp_ite _,
      show (fun a b : DCAOrder =>
            decide (cmpP1 "outputMint" (some Dir.descend) a b ≤ 0)) =
          fun a b : DCAOrder => jsStrLt b.outputMint a.outputMint from
        funext fun a => funext fun b => decide_cmp_ite _]
    exact jsSort_rev_key (fun o => o.outputMint) jsStrLt jsStrLt_trans jsStrLt_asymm
      jsStrLt_conn l (hpw.imp fun h => fun he => h (congrArg JsVal.str he))
  · rw [show (fun a b : DCAOrder =>
            decide (cmpP1 "amount" (some Dir.ascend) a b ≤ 0)) =
          fun a b : DCAOrder => decide (a.amount < b.amount) from
        funext fun a => funext fun b => decide_cmp_ite _,
      show (fun a b : DCAOrder =>
            decide (cmpP1 "amount" (some Dir.descend) a b ≤ 0)) =
          fun a b : DCAOrder => decide (b.amount < a.amount) from
        funext fun a => funext fun b => decide_cmp_ite _]
    exact jsSort_rev_key (fun o => o.amount) (fun p q => decide (p < q))
      (fun x y z => dlt_trans x y z) (fun x y => dlt_asymm x y)
      (fun x y => dlt_conn x y) l
      (hpw.imp fun h => fun he => h (congrArg JsVal.num he))
  · rw [show (fun a b : DCAOrder =>
            decide (cmpP1 "frequency" (some Dir.ascend) a b ≤ 0)) =
          fun a b : DCAOrder => jsStrLt a.frequency b.frequency from
        funext fun a => funext fun b => decide_cmp_ite _,
      show (fun a b : DCAOrder =>
            decide (cmpP1 "frequency" (some Dir.descend) a b ≤ 0)) =
          fun a b : DCAOrder => jsStrLt b.frequency a.frequency from
        funext fun a => funext fun b => decide_cmp_ite _]
    exact jsSort_rev_key (fun o => o.frequency) jsStrLt jsStrLt_trans jsStrLt_asymm
      jsStrLt_conn l (hpw.imp fun h => fun he => h (congrArg JsVal.str he))
  · rw [show (fun a b : DCAOrder =>
            decide (cmpP1 "createdAt" (some Dir.ascend) a b ≤ 0)) =
          fun a b : DCAOrder => decide ((a.createdAt : ℚ) < (b.createdAt : ℚ)) from
        funext fun a => funext fun b => decide_cmp_ite _,
      show (fun a b : DCAOrder =>
            decide (cmpP1 "createdAt" (some Dir.descend) a b ≤ 0)) =
          fun a b : DCAOrder => decide ((b.createdAt : ℚ) < (a.createdAt : ℚ)) from
        funext fun a => funext fun b => decide_cmp_ite _]
    exact jsSort_rev_key (fun o => (o.createdAt : ℚ)) (fun p q => decide (p < q))
      (fun x y z => dlt_trans x y z) (fun x y => dlt_asymm x y)
      (fun x y => dlt_conn x y) l
      (hpw.imp fun h => fun he => h (congrArg JsVal.num he))
  · rw [show (fun a b : DCAOrder =>
            decide (cmpP1 "executeAt" (some Dir.ascend) a b ≤ 0)) =
          fun a b : DCAOrder => decide ((a.executeAt : ℚ) < (b.executeAt : ℚ)) from
        funext fun a => funext fun b => decide_cmp_ite _,
      show (fun a b : DCAOrder =>
            decide (cmpP1 "executeAt" (some Dir.descend) a b ≤ 0)) =
          fun a b : DCAOrder => decide ((b.executeAt : ℚ) < (a.executeAt : ℚ)) from
        funext fun a => funext fun b => decide_cmp_ite _]
    exact jsSort_rev_key (fun o => (o.executeAt : ℚ)) (fun p q => decide (p < q))
      (fun x y z => dlt_trans x y z) (fun x y => dlt_asymm x y)
      (fun x y => dlt_conn x y) l
      (hpw.imp fun h => fun he => h (congrArg JsVal.num he))
  · rw [show (fun a b : DCAOrder =>
            decide (cmpP1 "tokenPair" (some Dir.ascend) a b ≤ 0)) =
          fun a b : DCAOrder => !jsStrLt (tokenPair b) (tokenPair a) from
        funext fun a => funext fun b => decide_locale_le (tokenPair a) (tokenPair b),
      show (fun a b : DCAOrder =>
            decide (cmpP1 "tokenPair" (some Dir.descend) a b ≤ 0)) =
          fun a b : DCAOrder => !jsStrLt (tokenPair a) (tokenPair b) from
        funext fun a => funext fun b => decide_locale_le (tokenPair b) (tokenPair a)]
    exact jsSort_rev_key_le (fun o => tokenPair o) jsStrLt jsStrLt_trans
      jsStrLt_asymm jsStrLt_conn l
      (hpw.imp fun h => fun he => h (congrArg JsVal.str he))

/-- C6 (witness): the reverse law applied at the key `"amount"` to the
spec's §8 scenario list, whose amounts 100 and 50 are distinct. -/
theorem c6_sort_reverse_law_witness :
    (sortEngineP1 "amount" (some Dir.ascend) [sampleSol, sampleUsdc]).reverse =
      sortEngineP1 "amount" (some Dir.descend) [sampleSol, sampleUsdc] :=
  c6_sort_reverse_law "amount" (by decide) [sampleSol, sampleUsdc] (by decide)

/-- C7 (evaluation at the failing input): with the unknown key `"bogus"`
(not a record field, not `tokenPair`) and direction `ascend`, the sort
engine of `part_001` does not behave as if the direction were unset: the
comparator compares two `undefined` values, always returns 1, and in the
stable-sort model the two-element list comes out reversed, while an unset
direction leaves the list unchanged. -/
theorem c7_unknown_key_not_noop :
    sortEngineP1 "bogus" (some Dir.ascend) [sampleSol, sampleUsdc] =
        [sampleUsdc, sampleSol] ∧
      sortEngineP1 "bogus" none [sampleSol, sampleUsdc] = [sampleSol, sampleUsdc] := by
  decide

/-- C8: the sort engine of `part_002` with a `null` direction returns the
input sequence unchanged for every sort key, because the comparator
short-circuits to 0 and a stable sort with an everywhere-tied comparator
reorders nothing. -/
theorem c8_null_direction_noop (key : String) (orders : List DCAOrder) :
    sortEngineP2 key none orders = orders := by
  have h : (fun a b : DCAOrder => decide (cmpP2 key none a b ≤ 0)) =
      fun _ _ : DCAOrder => true := funext fun a => funext fun b => by
    simp [cmpP2]
  unfold sortEngineP2
  rw [h]
  exact jsSort_const_true orders
